import Mathlib

/-!
Verification of the bilingual lexical search and highlighting engine.

Shallow embedding of the TypeScript core:
 - `findMatchingChunks`, `performSearch` from `src/components/BilingualSearch.tsx`
 - `highlightText`, `handleOriginalScroll`, `handleTranslatedScroll` from
   `src/components/SplitPaneViewer.tsx`

Strings are modelled as `List Char` (JavaScript strings are sequences of
code units; all the operations used by the core are sequence operations).
`String.prototype.toLowerCase` is modelled by `Char.toLower` per character
(they agree on ASCII, which is all the concrete claims exercise).
JavaScript numbers are modelled by `ℚ`: every arithmetic step taken by the
code (counting, dividing an occurrence count by a line length, scroll
ratios) is exact on the rationals appearing in the claims.
-/

namespace MLP

/-- `text.toLowerCase()` character by character. -/
def toLowerL (s : List Char) : List Char := s.map Char.toLower

/-- `pat` is a prefix of `s` (the test done at one scan position). -/
def startsWithL : List Char → List Char → Bool
  | [], _ => true
  | _ :: _, [] => false
  | p :: ps, c :: cs => p == c && startsWithL ps cs

/-- `s.includes(pat)`: `pat` occurs as a contiguous substring of `s`. -/
def hasSub (pat : List Char) : List Char → Bool
  | [] => decide (pat = [])
  | c :: rest => startsWithL pat (c :: rest) || hasSub pat rest

/-- `s.indexOf(pat)`: position of the first occurrence of `pat` in `s`,
`none` when there is no occurrence. -/
def indexOfSub (pat : List Char) : List Char → Option Nat
  | [] => if pat = [] then some 0 else none
  | c :: rest =>
    if startsWithL pat (c :: rest) then some 0
    else (indexOfSub pat rest).map (· + 1)

/-- One step of the global-regex scan (`regex.exec` in a loop over the text):
leftmost match, then continue after the matched text (non-overlapping).
A zero-length pattern matches at every position including the end, and the
scanner advances by one — exactly the `lastIndex` bump JavaScript performs
for empty matches.  `fuel` is a structural-recursion bound; it is always
called with more fuel than the text length, which the scan never exhausts. -/
def occFuel (pat : List Char) : Nat → List Char → Nat → List Nat
  | 0, _, _ => []
  | _ + 1, [], i => if pat = [] then [i] else []
  | fuel + 1, c :: rest, i =>
    if pat = [] then i :: occFuel pat fuel rest (i + 1)
    else if startsWithL pat (c :: rest) then
      i :: occFuel pat fuel ((c :: rest).drop pat.length) (i + pat.length)
    else occFuel pat fuel rest (i + 1)

/-- Start positions of the non-overlapping left-to-right matches of `pat`
in `s`, offset by `i` (the `'g'`-flag regex scan). -/
def occPositions (pat s : List Char) (i : Nat) : List Nat :=
  occFuel pat (s.length + 1) s i

/-- `(s.match(new RegExp(escapeRegex(pat), 'g')) || []).length`: number of
non-overlapping occurrences of `pat` in `s`.  The source escapes the
pattern, so the regex matches the literal string `pat`. -/
def countOcc (pat s : List Char) : Nat :=
  (occPositions pat s 0).length

/-- `text.split('\n')`: split into lines; empty lines are preserved and the
result is never empty. -/
def splitNl : List Char → List (List Char)
  | [] => [[]]
  | c :: rest =>
    match splitNl rest with
    | [] => [[c]]
    | l :: ls => if c = '\n' then [] :: l :: ls else (c :: l) :: ls

/-- `lines.join('\n')`. -/
def joinNl : List (List Char) → List Char
  | [] => []
  | [l] => l
  | l :: l' :: ls => l ++ '\n' :: joinNl (l' :: ls)

/-- `s.slice(a, b)` for non-negative indices: the characters in `[a, b)`,
clipped at the ends. -/
def sliceL (s : List Char) (a b : Nat) : List Char :=
  (s.take b).drop a

/-- The whitespace characters removed by `String.prototype.trim` that the
embedding models (the ASCII ones; the claims only exercise these). -/
def isWsChar (c : Char) : Bool :=
  c == ' ' || c == '\t' || c == '\n' || c == '\r'

/-- `s.trim()`. -/
def trimL (s : List Char) : List Char :=
  ((s.dropWhile isWsChar).reverse.dropWhile isWsChar).reverse

/-! ### The Lexical Match Engine (`findMatchingChunks`) -/

/-- One located occurrence: the context window and its relevance score. -/
structure MatchCandidate where
  text : List Char
  score : ℚ
deriving DecidableEq, Repr

/-- The candidate pushed for a hit at line index `i` of `lines` whose line
is `line` (`query` already lowercased, as in the source):
context window `lines.slice(max(0, i-1), min(lines.length, i+2)).join('\n')`
and score `occurrences / line.length`.  `i - 1` is truncated subtraction,
which is exactly `Math.max(0, i - 1)`.  The score is written with `mkRat`,
which is the rational `occurrences / line.length` (see
`mkCandidate_score_div`); `mkRat` is used because `Rat.inv` is irreducible
and would block evaluation of concrete instances. -/
def mkCandidate (lines : List (List Char)) (lq : List Char) (i : Nat)
    (line : List Char) : MatchCandidate :=
  { text := joinNl ((lines.take (min lines.length (i + 2))).drop (i - 1)),
    score := mkRat (countOcc lq (toLowerL line)) line.length }

/-- The `for (let i = 0; ...)` loop: `rest` is the suffix of `lines`
starting at index `i`; a candidate is pushed for every line containing the
(lowercased) query. -/
def rawCandidatesAux (lines : List (List Char)) (lq : List Char) :
    Nat → List (List Char) → List MatchCandidate
  | _, [] => []
  | i, line :: rest =>
    (if hasSub lq (toLowerL line) then [mkCandidate lines lq i line] else [])
      ++ rawCandidatesAux lines lq (i + 1) rest

/-- All candidates, in line order (the `chunks` array before deduplication). -/
def rawCandidates (lines : List (List Char)) (lq : List Char) :
    List MatchCandidate :=
  rawCandidatesAux lines lq 0 lines

/-- `chunks.filter((chunk, index, self) => index === self.findIndex(c =>
c.text === chunk.text))`: keep a candidate exactly when no earlier
candidate has the same window text.  `seen` accumulates the window texts
already kept. -/
def dedupAux (seen : List (List Char)) :
    List MatchCandidate → List MatchCandidate
  | [] => []
  | c :: rest =>
    if c.text ∈ seen then dedupAux seen rest
    else c :: dedupAux (c.text :: seen) rest

/-- Deduplication by exact window-text equality, first occurrence wins. -/
def dedupByText (l : List MatchCandidate) : List MatchCandidate :=
  dedupAux [] l

/-- `findMatchingChunks(text, query)` (the spec's `findMatches`): split
into lines, collect a scored context window per hit line, deduplicate by
window text, and sort by score descending.  `Array.prototype.sort` is
stable, so the sort is a stable insertion sort. -/
def findMatches (text query : List Char) : List MatchCandidate :=
  List.insertionSort (fun a b => b.score ≤ a.score)
    (dedupByText (rawCandidates (splitNl text) (toLowerL query)))

/-! ### Corpus search (`performSearch`) -/

/-- The `searchLanguage` filter (`'all' | 'original' | 'translated'`). -/
inductive Scope where
  | all
  | original
  | translated
deriving DecidableEq, Repr

/-- One processed document pair. -/
structure DocumentPair where
  id : List Char
  filename : List Char
  originalLanguage : List Char
  originalText : List Char
  translatedText : List Char
deriving DecidableEq, Repr

/-- The aggregate of matches for one document against one query. -/
structure SearchResult where
  documentId : List Char
  filename : List Char
  originalLanguage : List Char
  originalMatches : List MatchCandidate
  translatedMatches : List MatchCandidate
deriving DecidableEq, Repr

/-- The result record built for one document: each side is searched only
when the scope permits it (`ql` is the already-lowercased query, as in the
source, which lowercases once before the loop). -/
def mkResult (scope : Scope) (ql : List Char) (d : DocumentPair) :
    SearchResult :=
  { documentId := d.id,
    filename := d.filename,
    originalLanguage := d.originalLanguage,
    originalMatches :=
      if scope = Scope.all ∨ scope = Scope.original then
        findMatches d.originalText ql
      else [],
    translatedMatches :=
      if scope = Scope.all ∨ scope = Scope.translated then
        findMatches d.translatedText ql
      else [] }

/-- Total match count of a result (the sort key of the result list). -/
def totalMatches (r : SearchResult) : Nat :=
  r.originalMatches.length + r.translatedMatches.length

/-- The document loop: keep a result only when at least one side matched
(`originalMatches.length > 0 || translatedMatches.length > 0`). -/
def keptResults (docs : List DocumentPair) (query : List Char)
    (scope : Scope) : List SearchResult :=
  docs.filterMap (fun d =>
    if (mkResult scope (toLowerL query) d).originalMatches.length > 0
        ∨ (mkResult scope (toLowerL query) d).translatedMatches.length > 0
    then some (mkResult scope (toLowerL query) d)
    else none)

/-- The scan-and-sort core of `performSearch` (lines 54–87): build the kept
results in corpus order, then stable-sort by total match count descending. -/
def searchCorpus (docs : List DocumentPair) (query : List Char)
    (scope : Scope) : List SearchResult :=
  List.insertionSort (fun a b => totalMatches b ≤ totalMatches a)
    (keptResults docs query scope)

/-- `performSearch`: the `if (!searchQuery.trim())` guard returns the empty
result set before any document is scanned; otherwise run the core. -/
def performSearch (docs : List DocumentPair) (query : List Char)
    (scope : Scope) : List SearchResult :=
  if trimL query = [] then [] else searchCorpus docs query scope

/-! ### Highlight span computation (`highlightText` in `SplitPaneViewer`) -/

/-- A half-open highlight range `[s, e)` over the rendered text, tagged as
a pinned-chunk highlight (`highlight-active`) or a live-query highlight. -/
structure Span where
  s : Nat
  e : Nat
  isChunk : Bool
deriving DecidableEq, Repr

/-- One rendered part: plain text between highlights, or a `<mark>`. -/
inductive Segment where
  | plain (cs : List Char)
  | mark (cs : List Char)
deriving DecidableEq, Repr

/-- The text content a segment renders. -/
def Segment.content : Segment → List Char
  | .plain cs => cs
  | .mark cs => cs

/-- The spans pushed by the `'gi'` regex loop over `text`: one span per
non-overlapping case-insensitive occurrence of `query`. -/
def querySpans (text query : List Char) : List Span :=
  (occPositions (toLowerL query) (toLowerL text) 0).map
    (fun p => { s := p, e := p + (toLowerL query).length, isChunk := false })

/-- The spans pushed for the pinned chunks: first exact occurrence of each
chunk (`text.indexOf(chunk)`), silently skipped when absent. -/
def chunkSpans (text : List Char) (chunks : List (List Char)) : List Span :=
  chunks.filterMap (fun ch =>
    (indexOfSub ch text).map (fun i =>
      { s := i, e := i + ch.length, isChunk := true }))

/-- The `highlights` array after `highlights.sort((a, b) => a.start -
b.start)`: query spans, then chunk spans, stably sorted by start offset.
The empty query is falsy in the source (`if (query)`), so it contributes
no spans. -/
def highlightSpans (text query : List Char) (chunks : List (List Char)) :
    List Span :=
  List.insertionSort (fun a b => a.s ≤ b.s)
    ((if query = [] then [] else querySpans text query)
      ++ chunkSpans text chunks)

/-- The part-building loop: an implicit plain segment before each span
whose start lies beyond `lastIndex`, a `<mark>` per span, and a trailing
plain segment when `lastIndex` stops short of the end. -/
def buildParts (text : List Char) : Nat → List Span → List Segment
  | lastIndex, [] =>
    if lastIndex < text.length then [.plain (text.drop lastIndex)] else []
  | lastIndex, h :: rest =>
    (if lastIndex < h.s then [.plain (sliceL text lastIndex h.s)] else [])
      ++ .mark (sliceL text h.s h.e) :: buildParts text h.e rest

/-- `highlightText(text, query, chunks)` as the list of rendered segments.
With no query and no chunks the function returns the text verbatim (split
into lines joined by explicit `<br>` breaks, i.e. the text itself). -/
def highlightText (text query : List Char) (chunks : List (List Char)) :
    List Segment :=
  if query = [] ∧ chunks = [] then [.plain text]
  else buildParts text 0 (highlightSpans text query chunks)

/-- The text the segment list renders: concatenation of all parts. -/
def renderText (segs : List Segment) : List Char :=
  (segs.map Segment.content).flatten

/-- `spansOk n last spans`: the spans form a well-formed non-overlapping
chain starting at or after `last` and ending within a text of length `n`
(each span starts after the previous one ends). -/
def spansOk (n : Nat) : Nat → List Span → Bool
  | _, [] => true
  | last, h :: rest =>
    decide (last ≤ h.s) && decide (h.s ≤ h.e) && decide (h.e ≤ n)
      && spansOk n h.e rest

/-! ### Scroll mirroring (`handleOriginalScroll` / `handleTranslatedScroll`) -/

/-- Which pane most recently initiated a scroll. -/
inductive Pane where
  | original
  | translated
deriving DecidableEq, Repr

/-- The scroll geometry of the two panes plus the suppression flag
(`scrollingPane`).  The 50 ms timer that clears the flag is a later,
separate event; within one synchronous scroll action the flag keeps the
value the handler assigned. -/
structure ScrollState where
  origScrollTop : ℚ
  transScrollTop : ℚ
  origScrollHeight : ℚ
  origClientHeight : ℚ
  transScrollHeight : ℚ
  transClientHeight : ℚ
  scrollingPane : Option Pane
deriving DecidableEq, Repr

/-- The `scroll` listener on the original pane.  It reads the pane's own
offset (already updated by the browser), and either bails out (mirrored
event, or no scrollable overflow — the `maxScroll <= 0` early return, so
no division ever has a zero denominator) or mirrors proportionally. -/
def handleOriginalScroll (st : ScrollState) : ScrollState :=
  if st.scrollingPane = some Pane.translated then st
  else
    let st1 := { st with scrollingPane := some Pane.original }
    let maxScroll := st1.origScrollHeight - st1.origClientHeight
    if maxScroll ≤ 0 then st1
    else
      let ratio := st1.origScrollTop / maxScroll
      { st1 with
        transScrollTop :=
          ratio * (st1.transScrollHeight - st1.transClientHeight) }

/-- The `scroll` listener on the translated pane (symmetric). -/
def handleTranslatedScroll (st : ScrollState) : ScrollState :=
  if st.scrollingPane = some Pane.original then st
  else
    let st1 := { st with scrollingPane := some Pane.translated }
    let maxScroll := st1.transScrollHeight - st1.transClientHeight
    if maxScroll ≤ 0 then st1
    else
      let ratio := st1.transScrollTop / maxScroll
      { st1 with
        origScrollTop :=
          ratio * (st1.origScrollHeight - st1.origClientHeight) }

/-- The listeners are attached only while the `syncScroll` flag is on;
with sync disabled a scroll event runs no handler at all. -/
def onScroll (syncEnabled : Bool) (pane : Pane) (st : ScrollState) :
    ScrollState :=
  if syncEnabled then
    match pane with
    | Pane.original => handleOriginalScroll st
    | Pane.translated => handleTranslatedScroll st
  else st

/-- One complete user-driven scroll action on the original pane: the
browser sets the pane's offset to `x`, the pane's own handler runs, and —
only when that handler actually moved the translated pane — the translated
pane's scroll event fires its handler in the same synchronous action. -/
def userScrollOriginal (st : ScrollState) (x : ℚ) : ScrollState :=
  let st0 := { st with origScrollTop := x }
  let st1 := handleOriginalScroll st0
  if st1.transScrollTop ≠ st0.transScrollTop then handleTranslatedScroll st1
  else st1

/-- One complete user-driven scroll action on the translated pane. -/
def userScrollTranslated (st : ScrollState) (x : ℚ) : ScrollState :=
  let st0 := { st with transScrollTop := x }
  let st1 := handleTranslatedScroll st0
  if st1.origScrollTop ≠ st0.origScrollTop then handleOriginalScroll st1
  else st1

/-! ### Substring lemmas -/

theorem startsWithL_iff (p : List Char) :
    ∀ s, startsWithL p s = true ↔ ∃ t, s = p ++ t := by
  induction p with
  | nil => intro s; simp [startsWithL]
  | cons a ps ih =>
    intro s
    cases s with
    | nil => simp [startsWithL]
    | cons c cs =>
      simp only [startsWithL, Bool.and_eq_true, beq_iff_eq, ih,
        List.cons_append, List.cons.injEq]
      constructor
      · rintro ⟨rfl, t, rfl⟩; exact ⟨t, rfl, rfl⟩
      · rintro ⟨t, rfl, rfl⟩; exact ⟨rfl, t, rfl⟩

theorem hasSub_iff (p : List Char) :
    ∀ s, hasSub p s = true ↔ ∃ u v, s = u ++ p ++ v := by
  intro s
  induction s with
  | nil =>
    simp only [hasSub, decide_eq_true_eq]
    constructor
    · rintro rfl; exact ⟨[], [], rfl⟩
    · rintro ⟨u, v, h⟩
      rcases List.append_eq_nil.mp h.symm with ⟨h1, h2⟩
      rcases List.append_eq_nil.mp h1 with ⟨-, h3⟩
      exact h3
  | cons c cs ih =>
    simp only [hasSub, Bool.or_eq_true, startsWithL_iff, ih]
    constructor
    · rintro (⟨t, h⟩ | ⟨u, v, h⟩)
      · exact ⟨[], t, by simpa using h⟩
      · exact ⟨c :: u, v, by simp [h]⟩
    · rintro ⟨u, v, h⟩
      cases u with
      | nil => exact Or.inl ⟨v, by simpa using h⟩
      | cons d ds =>
        rw [List.cons_append, List.cons_append] at h
        injection h with h1 h2
        exact Or.inr ⟨ds, v, h2⟩

theorem length_toLowerL (s : List Char) : (toLowerL s).length = s.length :=
  List.length_map s Char.toLower

theorem toLowerL_append (a b : List Char) :
    toLowerL (a ++ b) = toLowerL a ++ toLowerL b :=
  List.map_append Char.toLower a b

/-- Every member of a line list occurs verbatim inside the joined text. -/
theorem joinNl_sub {l : List Char} :
    ∀ {L : List (List Char)}, l ∈ L → ∃ u v, joinNl L = u ++ l ++ v := by
  intro L
  induction L with
  | nil => intro h; cases h
  | cons x xs ih =>
    intro h
    rcases List.mem_cons.mp h with rfl | hxs
    · cases xs with
      | nil => exact ⟨[], [], by simp [joinNl]⟩
      | cons y ys => exact ⟨[], '\n' :: joinNl (y :: ys), by simp [joinNl]⟩
    · have hne : xs ≠ [] := List.ne_nil_of_mem hxs
      rcases xs with - | ⟨y, ys⟩
      · exact absurd rfl hne
      · rcases ih hxs with ⟨u, v, hv⟩
        refine ⟨x ++ '\n' :: u, v, ?_⟩
        simp [joinNl, hv]

/-- `slice(a, b)` glued back onto the rest of the text from `b` recovers
the text from `a`. -/
theorem sliceL_append_drop (l : List Char) {a b : Nat} (hab : a ≤ b) :
    sliceL l a b ++ l.drop b = l.drop a := by
  unfold sliceL
  conv_rhs => rw [← List.take_append_drop b l]
  rw [List.drop_append_eq_append_drop]
  refine congrArg (fun z => (l.take b).drop a ++ z) ?_
  rcases Nat.le_total b l.length with hb | hb
  · have h0 : a - (l.take b).length = 0 := by
      rw [List.length_take, Nat.min_eq_left hb]
      omega
    rw [h0, List.drop_zero]
  · rw [List.drop_eq_nil_of_le hb, List.drop_nil]

/-! ### Span-chain lemmas: the regex scan emits a well-formed chain -/

theorem spansOk_mono {n : Nat} :
    ∀ {l : List Span} {last last' : Nat},
      last' ≤ last → spansOk n last l = true → spansOk n last' l = true := by
  intro l
  cases l with
  | nil => intro last last' _ _; simp [spansOk]
  | cons h t =>
    intro last last' hle hok
    simp only [spansOk, Bool.and_eq_true, decide_eq_true_eq] at hok ⊢
    exact ⟨⟨⟨le_trans hle hok.1.1.1, hok.1.1.2⟩, hok.1.2⟩, hok.2⟩

theorem spansOk_le {n : Nat} :
    ∀ {l : List Span} {last : Nat},
      spansOk n last l = true → ∀ x ∈ l, last ≤ x.s := by
  intro l
  induction l with
  | nil => intro last _ x hx; cases hx
  | cons h t ih =>
    intro last hok x hx
    simp only [spansOk, Bool.and_eq_true, decide_eq_true_eq] at hok
    obtain ⟨⟨⟨h1, h2⟩, -⟩, h4⟩ := hok
    rcases List.mem_cons.mp hx with rfl | hxt
    · exact h1
    · exact le_trans (le_trans h1 h2) (ih h4 x hxt)

theorem spansOk_sorted {n : Nat} :
    ∀ {l : List Span} {last : Nat},
      spansOk n last l = true → l.Sorted (fun a b => a.s ≤ b.s) := by
  intro l
  induction l with
  | nil => intro last _; exact List.sorted_nil
  | cons h t ih =>
    intro last hok
    simp only [spansOk, Bool.and_eq_true, decide_eq_true_eq] at hok
    obtain ⟨⟨⟨-, h2⟩, -⟩, h4⟩ := hok
    refine List.Pairwise.cons (fun x hx => ?_) (ih h4)
    exact le_trans h2 (spansOk_le h4 x hx)

/-- The non-overlapping scan for a non-empty pattern produces a
well-formed chain of spans of the pattern's length. -/
theorem occFuel_spansOk (pat : List Char) (hp : ¬pat = []) :
    ∀ (fuel : Nat) (s : List Char) (i : Nat), s.length < fuel →
      spansOk (i + s.length) i
        ((occFuel pat fuel s i).map
          (fun p => { s := p, e := p + pat.length, isChunk := false })) = true := by
  intro fuel
  induction fuel with
  | zero => intro s i h; exact absurd h (Nat.not_lt_zero _)
  | succ f ih =>
    intro s i hlt
    cases s with
    | nil => simp [occFuel, hp, spansOk]
    | cons c rest =>
      simp only [occFuel, if_neg hp]
      by_cases hpref : startsWithL pat (c :: rest) = true
      · rw [if_pos hpref]
        have hplen : pat.length ≤ (c :: rest).length := by
          rcases (startsWithL_iff pat (c :: rest)).mp hpref with ⟨t, ht⟩
          rw [ht, List.length_append]
          exact Nat.le_add_right _ _
        simp only [List.map_cons, spansOk, Bool.and_eq_true, decide_eq_true_eq]
        refine ⟨⟨⟨le_refl i, Nat.le_add_right i pat.length⟩, by omega⟩, ?_⟩
        have hdlen : ((c :: rest).drop pat.length).length < f := by
          rw [List.length_drop]
          simp only [List.length_cons] at hlt ⊢
          have hpos : 0 < pat.length := List.length_pos.mpr hp
          omega
        have h2 := ih ((c :: rest).drop pat.length) (i + pat.length) hdlen
        have heq : i + pat.length + ((c :: rest).drop pat.length).length
            = i + (c :: rest).length := by
          rw [List.length_drop]
          omega
        rwa [heq] at h2
      · rw [if_neg hpref]
        have hlen : rest.length < f := by
          simp only [List.length_cons] at hlt
          omega
        have h2 := ih rest (i + 1) hlen
        have heq : i + 1 + rest.length = i + (c :: rest).length := by
          simp only [List.length_cons]
          omega
        rw [heq] at h2
        exact spansOk_mono (Nat.le_succ i) h2

/-! ### Rendering lemmas -/

theorem renderText_append (a b : List Segment) :
    renderText (a ++ b) = renderText a ++ renderText b := by
  simp [renderText]

/-- Slicing the text at a well-formed non-overlapping span chain and
concatenating all emitted parts recovers the text from `last` on. -/
theorem renderText_buildParts (text : List Char) :
    ∀ (spans : List Span) (last : Nat),
      spansOk text.length last spans = true →
      renderText (buildParts text last spans) = text.drop last := by
  intro spans
  induction spans with
  | nil =>
    intro last _
    simp only [buildParts]
    by_cases hl : last < text.length
    · rw [if_pos hl]; simp [renderText, Segment.content]
    · rw [if_neg hl]
      simp only [renderText, List.map_nil, List.flatten_nil]
      exact (List.drop_eq_nil_of_le (Nat.le_of_not_lt hl)).symm
  | cons h t ih =>
    intro last hok
    simp only [spansOk, Bool.and_eq_true, decide_eq_true_eq] at hok
    obtain ⟨⟨⟨h1, h2⟩, h3⟩, h4⟩ := hok
    simp only [buildParts]
    rw [renderText_append]
    have hplain : renderText
        (if last < h.s then [Segment.plain (sliceL text last h.s)] else [])
        = sliceL text last h.s := by
      by_cases hc : last < h.s
      · rw [if_pos hc]; simp [renderText, Segment.content]
      · rw [if_neg hc]
        have hse : h.s = last := le_antisymm (Nat.le_of_not_lt hc) h1
        subst hse
        simp only [renderText, List.map_nil, List.flatten_nil]
        unfold sliceL
        refine (List.drop_eq_nil_of_le ?_).symm
        rw [List.length_take]
        exact Nat.min_le_left _ _
    rw [hplain]
    have hmark : renderText (Segment.mark (sliceL text h.s h.e)
        :: buildParts text h.e t)
        = sliceL text h.s h.e ++ renderText (buildParts text h.e t) := by
      simp [renderText, Segment.content]
    rw [hmark, ih h.e h4, sliceL_append_drop text h2,
      sliceL_append_drop text h1]

/-! ### Deduplication lemmas -/

theorem dedupAux_subset :
    ∀ (l : List MatchCandidate) (seen : List (List Char))
      (c : MatchCandidate), c ∈ dedupAux seen l → c ∈ l := by
  intro l
  induction l with
  | nil => intro seen c h; simp [dedupAux] at h
  | cons x rest ih =>
    intro seen c h
    simp only [dedupAux] at h
    by_cases hx : x.text ∈ seen
    · rw [if_pos hx] at h
      exact List.mem_cons_of_mem x (ih seen c h)
    · rw [if_neg hx] at h
      rcases List.mem_cons.mp h with rfl | h2
      · exact List.mem_cons_self _ _
      · exact List.mem_cons_of_mem x (ih (x.text :: seen) c h2)

/-- A survivor of deduplication was not previously seen, and it is the
first element of the input with its window text (first occurrence wins). -/
theorem dedupAux_spec :
    ∀ (l : List MatchCandidate) (seen : List (List Char))
      (c : MatchCandidate), c ∈ dedupAux seen l →
      c.text ∉ seen
        ∧ l.find? (fun d => decide (d.text = c.text)) = some c := by
  intro l
  induction l with
  | nil => intro seen c h; simp [dedupAux] at h
  | cons x rest ih =>
    intro seen c h
    simp only [dedupAux] at h
    by_cases hx : x.text ∈ seen
    · rw [if_pos hx] at h
      obtain ⟨hns, hfind⟩ := ih seen c h
      have hne : ¬x.text = c.text := fun he => hns (he ▸ hx)
      refine ⟨hns, ?_⟩
      rw [List.find?_cons_of_neg _ (by simpa using hne)]
      exact hfind
    · rw [if_neg hx] at h
      rcases List.mem_cons.mp h with rfl | h2
      · exact ⟨hx, List.find?_cons_of_pos _ (by simp)⟩
      · obtain ⟨hns, hfind⟩ := ih (x.text :: seen) c h2
        have hcx : c.text ∉ seen := fun hs => hns (List.mem_cons_of_mem _ hs)
        have hne : ¬x.text = c.text := by
          intro he
          exact hns (he ▸ List.mem_cons_self x.text seen)
        refine ⟨hcx, ?_⟩
        rw [List.find?_cons_of_neg _ (by simpa using hne)]
        exact hfind

/-- Deduplication drops no window text: every input candidate whose text
is not already seen is represented in the output by a candidate with the
same window text. -/
theorem dedupAux_covers :
    ∀ (l : List MatchCandidate) (seen : List (List Char))
      (d : MatchCandidate), d ∈ l → d.text ∉ seen →
      ∃ c ∈ dedupAux seen l, c.text = d.text := by
  intro l
  induction l with
  | nil => intro seen d hd; cases hd
  | cons x rest ih =>
    intro seen d hd hns
    simp only [dedupAux]
    rcases List.mem_cons.mp hd with rfl | hdr
    · rw [if_neg hns]
      exact ⟨d, List.mem_cons_self _ _, rfl⟩
    · by_cases hx : x.text ∈ seen
      · rw [if_pos hx]
        exact ih seen d hdr hns
      · rw [if_neg hx]
        by_cases hdx : d.text = x.text
        · exact ⟨x, List.mem_cons_self _ _, hdx.symm⟩
        · have hns2 : d.text ∉ x.text :: seen := by
            intro hmem
            rcases List.mem_cons.mp hmem with h | h
            · exact hdx h
            · exact hns h
          obtain ⟨c, hc, hct⟩ := ih (x.text :: seen) d hdr hns2
          exact ⟨c, List.mem_cons_of_mem x hc, hct⟩

/-- Deduplicated candidates have pairwise distinct window texts. -/
theorem dedupAux_pairwise :
    ∀ (l : List MatchCandidate) (seen : List (List Char)),
      (dedupAux seen l).Pairwise (fun a b => a.text ≠ b.text) := by
  intro l
  induction l with
  | nil => intro seen; simp [dedupAux]
  | cons x rest ih =>
    intro seen
    simp only [dedupAux]
    by_cases hx : x.text ∈ seen
    · rw [if_pos hx]; exact ih seen
    · rw [if_neg hx]
      refine List.Pairwise.cons (fun b hb => ?_) (ih (x.text :: seen))
      have hb2 := (dedupAux_spec rest (x.text :: seen) b hb).1
      intro he
      exact hb2 (he ▸ List.mem_cons_self x.text seen)

theorem dedupByText_ne_nil (x : MatchCandidate) (rest : List MatchCandidate) :
    dedupByText (x :: rest) ≠ [] := by
  simp [dedupByText, dedupAux]

/-! ### Candidate-collection lemmas -/

theorem rawCandidatesAux_ne_nil (lines : List (List Char)) (lq : List Char) :
    ∀ (rest : List (List Char)) (i : Nat) (line : List Char),
      line ∈ rest → hasSub lq (toLowerL line) = true →
      rawCandidatesAux lines lq i rest ≠ [] := by
  intro rest
  induction rest with
  | nil => intro i line h; cases h
  | cons x rs ih =>
    intro i line hmem hhit
    simp only [rawCandidatesAux]
    rcases List.mem_cons.mp hmem with rfl | h2
    · rw [if_pos hhit]; simp
    · intro hcontra
      rcases List.append_eq_nil.mp hcontra with ⟨-, h4⟩
      exact ih (i + 1) line h2 hhit h4

/-- Every collected candidate is the candidate of some hit line, at the
line's index. -/
theorem rawCandidatesAux_mem (lines : List (List Char)) (lq : List Char) :
    ∀ (rest : List (List Char)) (i : Nat) (c : MatchCandidate)
      (pre : List (List Char)),
      c ∈ rawCandidatesAux lines lq i rest →
      lines = pre ++ rest → pre.length = i →
      ∃ pre2 line post, lines = pre2 ++ line :: post
        ∧ hasSub lq (toLowerL line) = true
        ∧ c = mkCandidate lines lq pre2.length line := by
  intro rest
  induction rest with
  | nil => intro i c pre h _ _; simp [rawCandidatesAux] at h
  | cons x rs ih =>
    intro i c pre h hl hp
    simp only [rawCandidatesAux] at h
    rcases List.mem_append.mp h with h1 | h2
    · by_cases hhit : hasSub lq (toLowerL x) = true
      · rw [if_pos hhit] at h1
        simp only [List.mem_singleton] at h1
        exact ⟨pre, x, rs, hl, hhit, by rw [h1, hp]⟩
      · rw [if_neg hhit] at h1
        simp at h1
    · refine ih (i + 1) c (pre ++ [x]) h2 (by rw [hl]; simp) ?_
      simp [hp]

/-! ### Stability of the (insertion) sort -/

theorem insertionSort_ne_nil {α : Type} (r : α → α → Prop) [DecidableRel r]
    (l : List α) (h : l ≠ []) : List.insertionSort r l ≠ [] := by
  intro hc
  have hperm := List.perm_insertionSort r l
  rw [hc] at hperm
  exact h hperm.symm.eq_nil

/-- Inserting an element whose key is `n` puts it in front of every other
element with key `n`; inserting any other key leaves the key-`n`
subsequence unchanged. -/
theorem orderedInsert_filter_key {α β : Type} [LinearOrder β]
    [DecidableEq β] (κ : α → β) (n : β) (x : α) :
    ∀ l : List α,
      (List.orderedInsert (fun a b => κ b ≤ κ a) x l).filter
          (fun e => decide (κ e = n))
        = if κ x = n then
            x :: l.filter (fun e => decide (κ e = n))
          else l.filter (fun e => decide (κ e = n)) := by
  intro l
  induction l with
  | nil =>
    by_cases hx : κ x = n <;>
      simp [List.orderedInsert, List.filter, hx]
  | cons y ys ih =>
    simp only [List.orderedInsert]
    by_cases hr : κ y ≤ κ x
    · rw [if_pos hr]
      by_cases hx : κ x = n <;> simp [List.filter_cons, hx]
    · rw [if_neg hr]
      have hxy : κ x < κ y := lt_of_not_le hr
      by_cases hy : κ y = n
      · have hx : ¬κ x = n := by
          intro hx
          exact ne_of_lt hxy (hx.trans hy.symm)
        simp [List.filter_cons, hy, hx, ih]
      · by_cases hx : κ x = n <;> simp [List.filter_cons, hy, hx, ih]

/-- Stability at every key: sorting by key never reorders the elements
sharing one key value. -/
theorem insertionSort_filter_key {α β : Type} [LinearOrder β]
    [DecidableEq β] (κ : α → β) (n : β) :
    ∀ l : List α,
      (List.insertionSort (fun a b => κ b ≤ κ a) l).filter
          (fun e => decide (κ e = n))
        = l.filter (fun e => decide (κ e = n)) := by
  intro l
  induction l with
  | nil => rfl
  | cons x xs ih =>
    simp only [List.insertionSort]
    rw [orderedInsert_filter_key κ n x _]
    by_cases hx : κ x = n <;> simp [List.filter_cons, hx, ih]

/-! ### Sort relations used by the engine are total preorders -/

instance scoreRelTotal :
    IsTotal MatchCandidate (fun a b => b.score ≤ a.score) :=
  ⟨fun a b => le_total b.score a.score⟩

instance scoreRelTrans :
    IsTrans MatchCandidate (fun a b => b.score ≤ a.score) :=
  ⟨fun _ _ _ h1 h2 => le_trans h2 h1⟩

instance totalRelTotal :
    IsTotal SearchResult (fun a b => totalMatches b ≤ totalMatches a) :=
  ⟨fun a b => Nat.le_total (totalMatches b) (totalMatches a)⟩

instance totalRelTrans :
    IsTrans SearchResult (fun a b => totalMatches b ≤ totalMatches a) :=
  ⟨fun _ _ _ h1 h2 => Nat.le_trans h2 h1⟩

instance spanRelTotal : IsTotal Span (fun a b => a.s ≤ b.s) :=
  ⟨fun a b => Nat.le_total a.s b.s⟩

instance spanRelTrans : IsTrans Span (fun a b => a.s ≤ b.s) :=
  ⟨fun _ _ _ h1 h2 => Nat.le_trans h1 h2⟩

/-! ### Glue lemmas for the match engine -/

/-- The candidate score is exactly the source's division
`occurrences / line.length`. -/
theorem mkCandidate_score_div (lines : List (List Char)) (lq : List Char)
    (i : Nat) (line : List Char) :
    (mkCandidate lines lq i line).score
      = (countOcc lq (toLowerL line) : ℚ) / (line.length : ℚ) := by
  simp only [mkCandidate]
  rw [Rat.mkRat_eq_div]
  norm_num

theorem findMatches_mem_dedup {t q : List Char} {c : MatchCandidate}
    (h : c ∈ findMatches t q) :
    c ∈ dedupByText (rawCandidates (splitNl t) (toLowerL q)) := by
  simpa [findMatches] using h

theorem findMatches_mem_raw {t q : List Char} {c : MatchCandidate}
    (h : c ∈ findMatches t q) :
    c ∈ rawCandidates (splitNl t) (toLowerL q) :=
  dedupAux_subset _ [] c (findMatches_mem_dedup h)

/-- An element between index bounds belongs to the corresponding slice. -/
theorem mem_take_drop {α : Type} (L : List α) (a b i : Nat)
    (hi : i < L.length) (ha : a ≤ i) (hb : i < b) :
    L[i] ∈ (L.take b).drop a := by
  have hlen : i - a < ((L.take b).drop a).length := by
    simp only [List.length_drop, List.length_take]
    omega
  have heq : ((L.take b).drop a)[i - a] = L[i] := by
    rw [List.getElem_drop]
    have hidx : a + (i - a) = i := by omega
    simp only [List.getElem_take, hidx]
  rw [← heq]
  exact List.getElem_mem hlen

/-- The hit line is one of the lines of its own context window. -/
theorem line_mem_window (pre : List (List Char)) (line : List Char)
    (post : List (List Char)) :
    line ∈ ((pre ++ line :: post).take
        (min (pre ++ line :: post).length (pre.length + 2))).drop
      (pre.length - 1) := by
  have hi : pre.length < (pre ++ line :: post).length := by
    simp [List.length_append]
  have hL : (pre ++ line :: post)[pre.length] = line := by
    rw [List.getElem_append_right (le_refl pre.length)]
    simp
  have hb : pre.length < min (pre ++ line :: post).length (pre.length + 2) :=
    Nat.lt_min.mpr ⟨hi, by omega⟩
  have hm := mem_take_drop (pre ++ line :: post) (pre.length - 1)
    (min (pre ++ line :: post).length (pre.length + 2)) pre.length hi
    (by omega) hb
  rwa [hL] at hm

/-- A hit line's context window contains the query case-insensitively. -/
theorem mkCandidate_hasSub (lq : List Char) (pre : List (List Char))
    (line : List Char) (post : List (List Char))
    (hhit : hasSub lq (toLowerL line) = true) :
    hasSub lq (toLowerL
      (mkCandidate (pre ++ line :: post) lq pre.length line).text) = true := by
  have hmem := line_mem_window pre line post
  rcases joinNl_sub hmem with ⟨u, v, hv⟩
  simp only [mkCandidate]
  rw [hv, toLowerL_append, toLowerL_append]
  rcases (hasSub_iff lq (toLowerL line)).mp hhit with ⟨a, b, hab⟩
  refine (hasSub_iff lq _).mpr ?_
  exact ⟨toLowerL u ++ a, b ++ toLowerL v, by simp [hab]⟩

/-! ### Glue lemmas for highlight spans -/

theorem querySpans_ok (text query : List Char) (hq : ¬query = []) :
    spansOk text.length 0 (querySpans text query) = true := by
  have hp : ¬toLowerL query = [] := by
    simpa [toLowerL, List.map_eq_nil_iff] using hq
  have h := occFuel_spansOk (toLowerL query) hp ((toLowerL text).length + 1)
    (toLowerL text) 0 (Nat.lt_succ_self _)
  simp only [Nat.zero_add] at h
  simpa [querySpans, occPositions, length_toLowerL] using h

theorem highlightSpans_nochunks (text query : List Char) :
    highlightSpans text query [] =
      if query = [] then [] else querySpans text query := by
  by_cases hq : query = []
  · simp [highlightSpans, chunkSpans, hq, List.insertionSort]
  · rw [if_neg hq]
    simp only [highlightSpans, chunkSpans, List.filterMap_nil,
      List.append_nil, if_neg hq]
    exact List.Sorted.insertionSort_eq
      (spansOk_sorted (querySpans_ok text query hq))

/-! ## Claim theorems -/

/-- C1 (counterexample): a non-empty query that occurs case-insensitively
in the whole text need not yield a match — a query containing a newline
never occurs within any single line, so `findMatches` returns the empty
sequence even though the text contains the query. -/
theorem findMatches_whole_text_occurrence_insufficient :
    (['a', '\n', 'b'] : List Char) ≠ []
      ∧ hasSub (toLowerL ['a', '\n', 'b']) (toLowerL ['a', '\n', 'b']) = true
      ∧ findMatches ['a', '\n', 'b'] ['a', '\n', 'b'] = [] :=
  ⟨by decide, by decide, by decide⟩

/-- C1 (amended): for every text `T` and non-empty query `Q` occurring
case-insensitively within some line of `T` (occurrences of the line-based
scan, rather than of the raw text, which can also be split by a newline
inside `Q`), `findMatches T Q` is non-empty, and every returned
candidate's window text contains `Q` case-insensitively. -/
theorem findMatches_line_occurrence_nonempty (t q : List Char)
    (hq : q ≠ [])
    (hocc : ∃ l ∈ splitNl t, hasSub (toLowerL q) (toLowerL l) = true) :
    findMatches t q ≠ []
      ∧ ∀ c ∈ findMatches t q,
          hasSub (toLowerL q) (toLowerL c.text) = true := by
  obtain ⟨l, hl, hhit⟩ := hocc
  constructor
  · simp only [findMatches]
    apply insertionSort_ne_nil
    have hraw := rawCandidatesAux_ne_nil (splitNl t) (toLowerL q)
      (splitNl t) 0 l hl hhit
    obtain ⟨x, rest, hx⟩ := List.exists_cons_of_ne_nil hraw
    rw [show rawCandidates (splitNl t) (toLowerL q)
        = rawCandidatesAux (splitNl t) (toLowerL q) 0 (splitNl t) from rfl,
      hx]
    exact dedupByText_ne_nil x rest
  · intro c hc
    obtain ⟨pre, line, post, hlines, hhit2, hceq⟩ :=
      rawCandidatesAux_mem (splitNl t) (toLowerL q) (splitNl t) 0 c []
        (findMatches_mem_raw hc) rfl rfl
    rw [hceq, hlines]
    exact mkCandidate_hasSub (toLowerL q) pre line post hhit2

/-- C1 (witness): a concrete case-insensitive single-line hit. -/
theorem findMatches_line_occurrence_nonempty_witness :
    findMatches ['c', 'a', 't'] ['C', 'A', 'T'] ≠ []
      ∧ ∀ c ∈ findMatches ['c', 'a', 't'] ['C', 'A', 'T'],
          hasSub (toLowerL ['C', 'A', 'T']) (toLowerL c.text) = true :=
  findMatches_line_occurrence_nonempty ['c', 'a', 't'] ['C', 'A', 'T']
    (by decide) ⟨['c', 'a', 't'], by decide, by decide⟩

/-- C3: every returned candidate carries the score
`occurrences-in-its-hit-line / hit-line-length` and the 3-line window of
its hit line; the result is sorted by score descending, and ties keep the
pre-sort (line) order; on the concrete document `"cat\ncat cat\nbird"`
with query `"cat"`, the candidate of line `"cat"` (score 1/3) precedes the
candidate of line `"cat cat"` (score 2/7). -/
theorem findMatches_score_ranking :
    (∀ (t q : List Char) (c : MatchCandidate), c ∈ findMatches t q →
      ∃ pre line post, splitNl t = pre ++ line :: post
        ∧ hasSub (toLowerL q) (toLowerL line) = true
        ∧ c.score
            = (countOcc (toLowerL q) (toLowerL line) : ℚ) / (line.length : ℚ)
        ∧ c.text = joinNl (((splitNl t).take
            (min (splitNl t).length (pre.length + 2))).drop (pre.length - 1)))
    ∧ (∀ t q : List Char,
        (findMatches t q).Sorted (fun a b => b.score ≤ a.score))
    ∧ (∀ (t q : List Char) (x : ℚ),
        (findMatches t q).filter (fun c => decide (c.score = x))
          = (dedupByText (rawCandidates (splitNl t) (toLowerL q))).filter
              (fun c => decide (c.score = x)))
    ∧ findMatches
        ['c','a','t','\n','c','a','t',' ','c','a','t','\n','b','i','r','d']
        ['c','a','t']
      = [{ text := ['c','a','t','\n','c','a','t',' ','c','a','t'],
           score := mkRat 1 3 },
         { text :=
             ['c','a','t','\n','c','a','t',' ','c','a','t','\n','b','i','r','d'],
           score := mkRat 2 7 }]
    ∧ mkRat 1 3 = (1 : ℚ)/3 ∧ mkRat 2 7 = (2 : ℚ)/7 := by
  refine ⟨?_, ?_, ?_, by decide, by norm_num [Rat.mkRat_eq_div],
    by norm_num [Rat.mkRat_eq_div]⟩
  · intro t q c hc
    obtain ⟨pre, line, post, hlines, hhit, hceq⟩ :=
      rawCandidatesAux_mem (splitNl t) (toLowerL q) (splitNl t) 0 c []
        (findMatches_mem_raw hc) rfl rfl
    refine ⟨pre, line, post, hlines, hhit, ?_, ?_⟩
    · rw [hceq]
      exact mkCandidate_score_div _ _ _ _
    · rw [hceq]
      rfl
  · intro t q
    simp only [findMatches]
    exact List.sorted_insertionSort _ _
  · intro t q x
    simp only [findMatches]
    exact insertionSort_filter_key MatchCandidate.score x _

/-- C3 (witness): the score/window decomposition at a concrete candidate. -/
theorem findMatches_score_ranking_witness :
    ∃ pre line post,
      splitNl ['c','a','t','\n','c','a','t',' ','c','a','t','\n','b','i','r','d']
        = pre ++ line :: post
      ∧ hasSub (toLowerL ['c','a','t']) (toLowerL line) = true
      ∧ ({ text := ['c','a','t','\n','c','a','t',' ','c','a','t'],
           score := mkRat 1 3 } : MatchCandidate).score
          = (countOcc (toLowerL ['c','a','t']) (toLowerL line) : ℚ)
              / (line.length : ℚ)
      ∧ ({ text := ['c','a','t','\n','c','a','t',' ','c','a','t'],
           score := mkRat 1 3 } : MatchCandidate).text
          = joinNl (((splitNl
              ['c','a','t','\n','c','a','t',' ','c','a','t','\n','b','i','r','d']).take
                (min (splitNl
                  ['c','a','t','\n','c','a','t',' ','c','a','t','\n','b','i','r','d']).length
                  (pre.length + 2))).drop (pre.length - 1)) :=
  findMatches_score_ranking.1
    ['c','a','t','\n','c','a','t',' ','c','a','t','\n','b','i','r','d']
    ['c','a','t']
    { text := ['c','a','t','\n','c','a','t',' ','c','a','t'],
      score := mkRat 1 3 }
    (by decide)

/-- C4 (counterexample): `findMatchingChunks` itself has universal-match
behavior on the empty query — the empty string is a substring of every
line, so every line becomes a candidate. -/
theorem findMatchingChunks_empty_query_universal :
    findMatches ['a'] [] ≠ [] := by decide

/-- C4 (amended): the empty-query guarantee holds one level up: the
`performSearch` guard returns the empty result set for the empty query
before `findMatchingChunks` is ever invoked. -/
theorem performSearch_empty_query_empty
    (docs : List DocumentPair) (scope : Scope) :
    performSearch docs [] scope = [] := rfl

/-- C5: the returned candidates have pairwise distinct window texts; each
survivor is the first collected candidate (earliest hit line) with its
window text; and no window text is lost — every collected candidate's
window text is represented in the result, by exactly that first
(earliest-hit-line) candidate.  Together: for every window text produced
by some hit line, exactly one candidate with that text appears, the one
arising from the earliest hit line. -/
theorem findMatches_dedup_first_wins (t q : List Char) (hq : q ≠ []) :
    (findMatches t q).Pairwise (fun a b => a.text ≠ b.text)
      ∧ (∀ c ∈ findMatches t q,
          (rawCandidates (splitNl t) (toLowerL q)).find?
            (fun d => decide (d.text = c.text)) = some c)
      ∧ ∀ d ∈ rawCandidates (splitNl t) (toLowerL q),
          ∃ c, c ∈ findMatches t q ∧ c.text = d.text
            ∧ (rawCandidates (splitNl t) (toLowerL q)).find?
                (fun e => decide (e.text = d.text)) = some c := by
  refine ⟨?_, ?_, ?_⟩
  · have hperm : List.Perm
        (dedupByText (rawCandidates (splitNl t) (toLowerL q)))
        (findMatches t q) :=
      (List.perm_insertionSort _ _).symm
    exact hperm.pairwise (dedupAux_pairwise _ [])
      (fun h => fun he => h he.symm)
  · intro c hc
    exact (dedupAux_spec _ [] c (findMatches_mem_dedup hc)).2
  · intro d hd
    obtain ⟨c, hc, hct⟩ :=
      dedupAux_covers (rawCandidates (splitNl t) (toLowerL q)) [] d hd
        (by simp)
    have hmem : c ∈ findMatches t q := by
      simpa [findMatches] using hc
    have hfind := (dedupAux_spec _ [] c hc).2
    rw [hct] at hfind
    exact ⟨c, hmem, hct, hfind⟩

/-- C5 (witness): both hit lines of `"ab\nb"` produce the byte-identical
window `"ab\nb"`; instantiating the coverage conjunct at the second
(later) hit line's candidate (score 1) shows a candidate with that window
text does appear in the result and is the first collected one, and the
evaluated result is exactly the earliest hit line's candidate
(score 1/2). -/
theorem findMatches_dedup_first_wins_witness :
    (∃ c, c ∈ findMatches ['a','b','\n','b'] ['b']
      ∧ c.text = ({ text := ['a','b','\n','b'], score := mkRat 1 1 }
          : MatchCandidate).text
      ∧ (rawCandidates (splitNl ['a','b','\n','b']) (toLowerL ['b'])).find?
          (fun e => decide (e.text
            = ({ text := ['a','b','\n','b'], score := mkRat 1 1 }
                : MatchCandidate).text)) = some c)
    ∧ findMatches ['a','b','\n','b'] ['b']
        = [{ text := ['a','b','\n','b'], score := mkRat 1 2 }] :=
  ⟨(findMatches_dedup_first_wins ['a','b','\n','b'] ['b'] (by decide)).2.2
      { text := ['a','b','\n','b'], score := mkRat 1 1 } (by decide),
   by decide⟩

/-- C6: a document's result record is in the output exactly when, under
the requested scope, at least one of its two match sequences is non-empty;
the output is sorted by total match count descending; and the sort is
stable — at every total-count value the output preserves corpus order. -/
theorem searchCorpus_membership_order (docs : List DocumentPair)
    (q : List Char) (scope : Scope) :
    (∀ d ∈ docs,
      (mkResult scope (toLowerL q) d ∈ searchCorpus docs q scope ↔
        ((mkResult scope (toLowerL q) d).originalMatches ≠ []
          ∨ (mkResult scope (toLowerL q) d).translatedMatches ≠ [])))
    ∧ (searchCorpus docs q scope).Sorted
        (fun a b => totalMatches b ≤ totalMatches a)
    ∧ (∀ n : Nat,
        (searchCorpus docs q scope).filter
            (fun r => decide (totalMatches r = n))
          = (keptResults docs q scope).filter
              (fun r => decide (totalMatches r = n))) := by
  refine ⟨?_, ?_, ?_⟩
  · intro d hd
    simp only [searchCorpus, List.mem_insertionSort]
    constructor
    · intro hmem
      obtain ⟨d', hd', heq⟩ := List.mem_filterMap.mp hmem
      by_cases hc : (mkResult scope (toLowerL q) d').originalMatches.length > 0
          ∨ (mkResult scope (toLowerL q) d').translatedMatches.length > 0
      · rw [if_pos hc] at heq
        have heq2 : mkResult scope (toLowerL q) d'
            = mkResult scope (toLowerL q) d := Option.some.inj heq
        rw [heq2] at hc
        rcases hc with h | h
        · exact Or.inl (List.length_pos.mp h)
        · exact Or.inr (List.length_pos.mp h)
      · rw [if_neg hc] at heq
        cases heq
    · intro hcond
      refine List.mem_filterMap.mpr ⟨d, hd, ?_⟩
      rw [if_pos ?_]
      rcases hcond with h | h
      · exact Or.inl (List.length_pos.mpr h)
      · exact Or.inr (List.length_pos.mpr h)
  · simp only [searchCorpus]
    exact List.sorted_insertionSort _ _
  · intro n
    simp only [searchCorpus]
    exact insertionSort_filter_key totalMatches n _

/-- A concrete document pair used to instantiate the corpus-level
theorems. -/
def demoDoc : DocumentPair :=
  { id := ['i'], filename := ['f'], originalLanguage := ['e'],
    originalText := ['a'], translatedText := ['b'] }

/-- C6 (witness): the membership criterion instantiated on a one-document
corpus. -/
theorem searchCorpus_membership_order_witness :
    mkResult Scope.all (toLowerL ['a']) demoDoc
        ∈ searchCorpus [demoDoc] ['a'] Scope.all ↔
      ((mkResult Scope.all (toLowerL ['a']) demoDoc).originalMatches ≠ []
        ∨ (mkResult Scope.all (toLowerL ['a']) demoDoc).translatedMatches
            ≠ []) :=
  (searchCorpus_membership_order [demoDoc] ['a'] Scope.all).1 demoDoc
    (by decide)

/-- C10: a query that is empty or all-whitespace trims to the empty
string, so the top-level search returns the empty result set without
scanning any document. -/
theorem performSearch_blank_query (docs : List DocumentPair)
    (q : List Char) (scope : Scope) (h : trimL q = []) :
    performSearch docs q scope = [] := by
  simp [performSearch, h]

/-- A document whose both sides contain a space, so a whitespace query
would match it if it were scanned. -/
def wsDoc : DocumentPair :=
  { id := ['i'], filename := ['f'], originalLanguage := ['e'],
    originalText := [' ', 'a'], translatedText := ['b', ' '] }

/-- C10 (witness): the single-space query is non-empty as a string, the
corpus document even contains a space on both sides, yet the search
returns no results. -/
theorem performSearch_blank_query_witness :
    ([' '] : List Char) ≠ []
      ∧ performSearch [wsDoc] [' '] Scope.all = [] :=
  ⟨by decide, performSearch_blank_query [wsDoc] [' '] Scope.all (by decide)⟩

/-! ### Scroll-handler lemmas -/

theorem handleOriginalScroll_origTop (st : ScrollState) :
    (handleOriginalScroll st).origScrollTop = st.origScrollTop := by
  simp only [handleOriginalScroll]
  split_ifs <;> rfl

theorem handleTranslatedScroll_transTop (st : ScrollState) :
    (handleTranslatedScroll st).transScrollTop = st.transScrollTop := by
  simp only [handleTranslatedScroll]
  split_ifs <;> rfl

/-- If the original-pane handler actually moved the translated pane, it
took the mirroring branch and left the suppression flag on `original`. -/
theorem handleOriginalScroll_flag (st : ScrollState)
    (h : (handleOriginalScroll st).transScrollTop ≠ st.transScrollTop) :
    (handleOriginalScroll st).scrollingPane = some Pane.original := by
  simp only [handleOriginalScroll] at h ⊢
  split_ifs at h ⊢
  · exact absurd rfl h
  · exact absurd rfl h
  · rfl

theorem handleTranslatedScroll_flag (st : ScrollState)
    (h : (handleTranslatedScroll st).origScrollTop ≠ st.origScrollTop) :
    (handleTranslatedScroll st).scrollingPane = some Pane.translated := by
  simp only [handleTranslatedScroll] at h ⊢
  split_ifs at h ⊢
  · exact absurd rfl h
  · exact absurd rfl h
  · rfl

/-- While the flag blames the original pane, the translated handler is
inert (the mirrored event is swallowed by the guard). -/
theorem handleTranslatedScroll_suppressed (st : ScrollState)
    (h : st.scrollingPane = some Pane.original) :
    handleTranslatedScroll st = st := by
  simp only [handleTranslatedScroll]
  rw [if_pos h]

theorem handleOriginalScroll_suppressed (st : ScrollState)
    (h : st.scrollingPane = some Pane.translated) :
    handleOriginalScroll st = st := by
  simp only [handleOriginalScroll]
  rw [if_pos h]

/-! ### Scroll claims -/

/-- A scroll state whose translated pane already sits at offset 37 while
the original pane has no scrollable overflow. -/
def staleOffsetState : ScrollState :=
  { origScrollTop := 0, transScrollTop := 37, origScrollHeight := 100,
    origClientHeight := 100, transScrollHeight := 500,
    transClientHeight := 100, scrollingPane := none }

/-- C7 (counterexample): on a pane without scrollable overflow the handler
returns early and leaves the other pane's offset unchanged (37 here) — it
does not set it to 0 as the claim states. -/
theorem scroll_no_overflow_not_zeroed :
    staleOffsetState.origScrollHeight - staleOffsetState.origClientHeight ≤ 0
      ∧ (handleOriginalScroll staleOffsetState).transScrollTop = 37
      ∧ (handleOriginalScroll staleOffsetState).transScrollTop ≠ 0 := by
  refine ⟨by norm_num [staleOffsetState], ?_, ?_⟩ <;>
    · simp only [handleOriginalScroll, staleOffsetState]
      rw [if_neg (by decide)]
      norm_num

/-- C7 (amended): when the source pane has no scrollable overflow
(`contentHeight <= viewportHeight`), the handler returns before computing
any ratio — no division happens, nothing throws, and the other pane's
offset is left unchanged (so it stays 0 only when it already was 0). -/
theorem scroll_no_overflow_no_update (st : ScrollState) :
    (st.origScrollHeight - st.origClientHeight ≤ 0 →
      (handleOriginalScroll st).transScrollTop = st.transScrollTop)
    ∧ (st.transScrollHeight - st.transClientHeight ≤ 0 →
      (handleTranslatedScroll st).origScrollTop = st.origScrollTop) := by
  constructor
  · intro h
    simp only [handleOriginalScroll]
    split_ifs <;> rfl
  · intro h
    simp only [handleTranslatedScroll]
    split_ifs <;> rfl

/-- A scroll state with no overflow on either pane and non-zero offsets. -/
def noOverflowState : ScrollState :=
  { origScrollTop := 5, transScrollTop := 7, origScrollHeight := 80,
    origClientHeight := 100, transScrollHeight := 50,
    transClientHeight := 100, scrollingPane := none }

/-- C7 (witness): degenerate geometry on both panes, handlers change
neither opposite offset. -/
theorem scroll_no_overflow_no_update_witness :
    (handleOriginalScroll noOverflowState).transScrollTop
        = noOverflowState.transScrollTop
      ∧ (handleTranslatedScroll noOverflowState).origScrollTop
          = noOverflowState.origScrollTop :=
  ⟨(scroll_no_overflow_no_update noOverflowState).1
      (by norm_num [noOverflowState]),
   (scroll_no_overflow_no_update noOverflowState).2
      (by norm_num [noOverflowState])⟩

/-- C8: a user scroll on a pane with scrollable overflow, while sync is
enabled and not suppressed, sets the other pane's offset to
`offset / (srcContent - srcViewport) * (otherContent - otherViewport)`. -/
theorem scroll_mirror_ratio (st : ScrollState) :
    (st.scrollingPane ≠ some Pane.translated →
      0 < st.origScrollHeight - st.origClientHeight →
      (onScroll true Pane.original st).transScrollTop
        = st.origScrollTop / (st.origScrollHeight - st.origClientHeight)
            * (st.transScrollHeight - st.transClientHeight))
    ∧ (st.scrollingPane ≠ some Pane.original →
      0 < st.transScrollHeight - st.transClientHeight →
      (onScroll true Pane.translated st).origScrollTop
        = st.transScrollTop / (st.transScrollHeight - st.transClientHeight)
            * (st.origScrollHeight - st.origClientHeight)) := by
  constructor
  · intro hflag hpos
    simp only [onScroll, if_pos, handleOriginalScroll]
    split_ifs with h1 h2
    · exact absurd h1 hflag
    · exact absurd h2 (not_le.mpr hpos)
    · rfl
  · intro hflag hpos
    simp only [onScroll, if_pos, handleTranslatedScroll]
    split_ifs with h1 h2
    · exact absurd h1 hflag
    · exact absurd h2 (not_le.mpr hpos)
    · rfl

/-- The spec's concrete mirroring geometry: pane A 1000/200 at offset 400,
pane B 500/100. -/
def mirrorDemoState : ScrollState :=
  { origScrollTop := 400, transScrollTop := 0, origScrollHeight := 1000,
    origClientHeight := 200, transScrollHeight := 500,
    transClientHeight := 100, scrollingPane := none }

/-- C8 (witness): ratio 400/800 = 0.5 lands pane B at exactly 200. -/
theorem scroll_mirror_ratio_witness :
    (onScroll true Pane.original mirrorDemoState).transScrollTop = 200 := by
  have h := (scroll_mirror_ratio mirrorDemoState).1
    (by simp [mirrorDemoState]) (by norm_num [mirrorDemoState])
  rw [h]
  norm_num [mirrorDemoState]

/-- C9: a user-driven scroll action updates the opposite pane at most once
and never bounces back: the cascaded handler run on the mirrored pane is
inert (the suppression flag makes its propagation branch unreachable), so
the whole action equals the single source-handler run and the originating
pane keeps the user's offset. -/
theorem scroll_no_feedback_loop (st : ScrollState) (x : ℚ) :
    userScrollOriginal st x
        = handleOriginalScroll { st with origScrollTop := x }
      ∧ (userScrollOriginal st x).origScrollTop = x
      ∧ userScrollTranslated st x
          = handleTranslatedScroll { st with transScrollTop := x }
      ∧ (userScrollTranslated st x).transScrollTop = x := by
  have h1 : userScrollOriginal st x
      = handleOriginalScroll { st with origScrollTop := x } := by
    simp only [userScrollOriginal]
    by_cases hch : (handleOriginalScroll
        { st with origScrollTop := x }).transScrollTop
        ≠ ({ st with origScrollTop := x } : ScrollState).transScrollTop
    · rw [if_pos hch]
      exact handleTranslatedScroll_suppressed _
        (handleOriginalScroll_flag _ hch)
    · rw [if_neg hch]
  have h2 : userScrollTranslated st x
      = handleTranslatedScroll { st with transScrollTop := x } := by
    simp only [userScrollTranslated]
    by_cases hch : (handleTranslatedScroll
        { st with transScrollTop := x }).origScrollTop
        ≠ ({ st with transScrollTop := x } : ScrollState).origScrollTop
    · rw [if_pos hch]
      exact handleOriginalScroll_suppressed _
        (handleTranslatedScroll_flag _ hch)
    · rw [if_neg hch]
  refine ⟨h1, ?_, h2, ?_⟩
  · rw [h1, handleOriginalScroll_origTop]
  · rw [h2, handleTranslatedScroll_transTop]

/-! ### Highlight claims -/

/-- C2 (counterexample): with overlapping spans (query `"ab"` twice and
pinned chunk `"bab"` in `"abab"`) the emitted parts duplicate the
overlapped characters — the rendered text is `"abbabab"`, not the source
text, so the spans do not reconstruct the text for arbitrary overlapping
combinations. -/
theorem highlight_overlap_not_reconstructing :
    renderText (highlightText ['a','b','a','b'] ['a','b'] [['b','a','b']])
      ≠ ['a','b','a','b'] := by decide

/-- C2 (amended): the computed spans are always sorted by start offset
ascending; whenever the emitted spans are pairwise non-overlapping (a
well-formed chain — in particular always when there are no pinned
chunks), slicing the text at the spans and concatenating highlighted and
implicit plain parts reconstructs the text exactly. -/
theorem highlight_spans_sorted_reconstruct (text query : List Char)
    (chunks : List (List Char)) :
    (highlightSpans text query chunks).Sorted (fun a b => a.s ≤ b.s)
      ∧ (spansOk text.length 0 (highlightSpans text query chunks) = true →
          renderText (highlightText text query chunks) = text)
      ∧ renderText (highlightText text query []) = text := by
  refine ⟨?_, ?_, ?_⟩
  · simp only [highlightSpans]
    exact List.sorted_insertionSort _ _
  · intro hok
    by_cases hqc : query = [] ∧ chunks = []
    · simp [highlightText, hqc, renderText, Segment.content]
    · simp only [highlightText, if_neg hqc]
      have h := renderText_buildParts text (highlightSpans text query chunks)
        0 hok
      rwa [List.drop_zero] at h
  · by_cases hq : query = []
    · simp [highlightText, hq, renderText, Segment.content]
    · simp only [highlightText]
      rw [if_neg (by simp [hq])]
      rw [highlightSpans_nochunks, if_neg hq]
      have h := renderText_buildParts text (querySpans text query) 0
        (querySpans_ok text query hq)
      rwa [List.drop_zero] at h

/-- C2 (witness): non-overlapping spans from both sources — query `"b"`
and pinned chunk `"d"` in `"abcd"` — reconstruct the text exactly. -/
theorem highlight_spans_sorted_reconstruct_witness :
    renderText (highlightText ['a','b','c','d'] ['b'] [['d']])
      = ['a','b','c','d'] :=
  (highlight_spans_sorted_reconstruct ['a','b','c','d'] ['b'] [['d']]).2.1
    (by decide)

end MLP
